import Mathlib

set_option maxRecDepth 4000

/-
Verification development for the Spaces backend (linear-algebra subspace
calculator).  The Python sources live in `src/matrix_engine.py`,
`src/main.py` and `src/config.py`; the exact-arithmetic engine delegates
row reduction and subspace extraction to SymPy, and the HTTP layer caches
assembled results in a `cachetools.TTLCache`.  Here the numeric values are
embedded as `ℚ`, matrices as `Matrix (Fin m) (Fin n) ℚ`, fallible parsing
as `Except`, and the cache as explicit state passing.
-/

namespace Spaces

/-! ### IEEE binary64 value model

The Python layer receives matrix entries as `int`, `float` or `str`.
A Python `float` is an IEEE binary64 value, hence an exact dyadic
rational.  `toDouble q` is the exact value of the double nearest to `q`
(round to nearest, ties to even, 53-bit significand; the bounded exponent
range of binary64 is not modelled, which is faithful for every value these
claims touch). -/

/-- Round a rational to the nearest integer, ties to even. -/
def roundNearestEven (q : ℚ) : ℤ :=
  let f := ⌊q⌋
  let r := q - (f : ℚ)
  if r < 1/2 then f
  else if (1:ℚ)/2 < r then f + 1
  else if f % 2 = 0 then f else f + 1

/-- Exact value of the IEEE binary64 double nearest to `q` (round to
nearest, ties to even, 53-bit significand, unbounded exponent range).
Models the value a Python `float` holds for a real input `q`. -/
def toDouble (q : ℚ) : ℚ :=
  if q = 0 then 0
  else
    let s : ℚ := if q < 0 then -1 else 1
    let a := |q|
    let e : ℤ := Int.log 2 a
    s * (roundNearestEven (a * 2 ^ (52 - e)) : ℚ) * 2 ^ (e - 52)

/-- Search, for `d = d0, d0+1, …` within the given fuel, for the nearest
decimal fraction with `d` decimal places that rounds back to the double
`x`; the first hit is the value of `x`'s shortest decimal
representation. -/
def searchDecimal (x : ℚ) : ℕ → ℕ → Option ℚ
  | 0, _ => none
  | fuel + 1, d =>
    let c : ℚ := (roundNearestEven (x * 10 ^ d) : ℚ) / 10 ^ d
    if toDouble c - x = 0 then some c else searchDecimal x fuel (d + 1)

/-- Modelled from the spec: SymPy's `nsimplify(val, rational=True)` (library
code, not under `src/`), which per §9 converts a floating value "via a
bounded simplicity search (finding a small-denominator rational near the
float) rather than the float's exact binary value".  Concretely the search
returns the value of the float's shortest decimal representation: the
decimal fraction `k / 10 ^ d` with the fewest decimal places that rounds
back to the same double.  The search covers the decimal lengths any
binary64 value needs (up to 1100); when no decimal within the bound
rounds back (impossible for actual binary64 values), the value itself is
returned. -/
def shortestDecimal (x : ℚ) : ℚ :=
  (searchDecimal x 1100 0).getD x

/-- Modelled from the spec: the float-to-rational conversion used by the
parser (`nsimplify(val, rational=True)` in `src/matrix_engine.py` line 97;
SymPy itself is not under `src/`). -/
def nsimplifyRat (x : ℚ) : ℚ := shortestDecimal x

/-! ### Matrix parser (`MatrixEngine._validate_and_parse`)

Entries arrive as a tagged union of numeric literal kinds.  A `float`
carries the exact binary64 value held by the Python object.  A `str`
carries the rational it encodes under SymPy's `Rational(str)` parse, or
`none` when SymPy rejects it (string contents are abstracted to that
outcome); non-numeric objects that make `Rational(val)` raise are also
covered by the `none` case. -/

inductive Entry where
  | int (n : ℤ)
  | float (x : ℚ)
  | str (q : Option ℚ)
deriving DecidableEq

/-- Entry conversion of `_validate_and_parse` (src/matrix_engine.py lines
94-101): floats go through `nsimplify(·, rational=True)`, ints and numeric
strings through `Rational(·)`; a failing conversion yields `none`. -/
def parseEntry : Entry → Option ℚ
  | .int n => some (n : ℚ)
  | .float x => some (nsimplifyRat x)
  | .str q => q

/-- Error taxonomy of spec §7 for the messages raised by
`_validate_and_parse`. -/
inductive ValidationError where
  | EmptyMatrix
  | NonRectangular
  | DimensionExceeded
  | ZeroColumns
  | InvalidEntry
deriving DecidableEq

/-- Validation and parsing, following `MatrixEngine._validate_and_parse`
(src/matrix_engine.py lines 59-106) check for check, in source order:
empty outer list ("Matrix cannot be empty"), more than 5 rows, zero
columns in the first row ("Matrix cannot have zero columns"), more than 5
columns, ragged rows, then entry conversion (any failure raises "Invalid
numeric value in matrix").  Messages are mapped to the spec §7 error
kinds. -/
def validateAndParse (raw : List (List Entry)) : Except ValidationError (List (List ℚ)) :=
  if raw.isEmpty then .error .EmptyMatrix
  else if 5 < raw.length then .error .DimensionExceeded
  else if (raw.headD []).length = 0 then .error .ZeroColumns
  else if 5 < (raw.headD []).length then .error .DimensionExceeded
  else if ¬ (∀ row ∈ raw, row.length = (raw.headD []).length) then .error .NonRectangular
  else
    match raw.mapM (fun row => row.mapM parseEntry) with
    | some rows => .ok rows
    | none => .error .InvalidEntry

/-! ### RREF reducer

Modelled from the spec, §4.2 (the reduction itself is performed by
`sympy.Matrix.rref`, library code not under `src/`): Gauss–Jordan
elimination with exact arithmetic and a deterministic first-nonzero pivot
policy.  A working matrix and a pivot-row cursor `k` walk the columns left
to right; a found pivot is swapped into the cursor row, the cursor row is
normalized by dividing by the pivot value, the pivot column is eliminated
from every other row, and the column index is recorded. -/

variable {m n : ℕ}

/-- Swap rows `a` and `b`. -/
def rowSwap (M : Matrix (Fin m) (Fin n) ℚ) (a b : Fin m) : Matrix (Fin m) (Fin n) ℚ :=
  fun i j => if i = a then M b j else if i = b then M a j else M i j

/-- Multiply row `a` by the constant `c` (normalization divides by the
pivot value, i.e. scales by its inverse). -/
def rowScale (M : Matrix (Fin m) (Fin n) ℚ) (a : Fin m) (c : ℚ) : Matrix (Fin m) (Fin n) ℚ :=
  fun i j => if i = a then c * M i j else M i j

/-- Eliminate column `p` from every row other than `a` by subtracting the
appropriate multiple of row `a` (whose entry at `p` has been normalized
to 1). -/
def rowEliminate (M : Matrix (Fin m) (Fin n) ℚ) (a : Fin m) (p : Fin n) :
    Matrix (Fin m) (Fin n) ℚ :=
  fun i j => if i = a then M i j else M i j - M i p * M a j

/-- Scan rows from index `k` upward (with the given fuel) for the first
row with a nonzero entry in column `c`. -/
def findPivotGo (M : Matrix (Fin m) (Fin n) ℚ) (c : Fin n) : ℕ → ℕ → Option (Fin m)
  | 0, _ => none
  | fuel + 1, k =>
    if h : k < m then
      if M ⟨k, h⟩ c = 0 then findPivotGo M c fuel (k + 1) else some ⟨k, h⟩
    else none

/-- First row at or below the cursor `k` with a nonzero entry in column
`c` (spec §4.2 step 2: first-nonzero, not largest-magnitude). -/
def findPivot (M : Matrix (Fin m) (Fin n) ℚ) (k : ℕ) (c : Fin n) : Option (Fin m) :=
  findPivotGo M c m k

/-- One pivot step at cursor row `k`, column `c`, pivot row `r`: swap,
normalize, eliminate (spec §4.2 steps 3-4). -/
def pivotStep (M : Matrix (Fin m) (Fin n) ℚ) (k : Fin m) (c : Fin n) (r : Fin m) :
    Matrix (Fin m) (Fin n) ℚ :=
  let M1 := rowSwap M k r
  rowEliminate (rowScale M1 k (M1 k c)⁻¹) k c

/-- Column loop of Gauss–Jordan elimination, structurally recursive on a
fuel that bounds the number of remaining columns; `k` is the pivot-row
cursor and `c` the current column.  Returns the reduced matrix and the
ordered pivot columns. -/
def rrefGo : ℕ → Matrix (Fin m) (Fin n) ℚ → ℕ → ℕ → Matrix (Fin m) (Fin n) ℚ × List (Fin n)
  | 0, M, _, _ => (M, [])
  | fuel + 1, M, k, c =>
    if hc : c < n then
      match findPivot M k ⟨c, hc⟩ with
      | none => rrefGo fuel M k (c + 1)
      | some r =>
        if hk : k < m then
          let rest := rrefGo fuel (pivotStep M ⟨k, hk⟩ ⟨c, hc⟩ r) (k + 1) (c + 1)
          (rest.1, ⟨c, hc⟩ :: rest.2)
        else (M, [])
    else (M, [])

/-- Reduced row-echelon form with ordered pivot columns
(`Matrix.rref()` in `get_rref`, src/matrix_engine.py lines 116-123). -/
def rref (M : Matrix (Fin m) (Fin n) ℚ) : Matrix (Fin m) (Fin n) ℚ × List (Fin n) :=
  rrefGo n M 0 0

/-- Rank of the matrix (`Matrix.rank()` in `get_rank`,
src/matrix_engine.py line 114); per spec §4.2 the rank is the length of
the pivot column list. -/
def matRank (M : Matrix (Fin m) (Fin n) ℚ) : ℕ := (rref M).2.length

/-! ### Subspace extractor (spec §4.3; SymPy's `columnspace`, `rowspace`,
`nullspace` are library code not under `src/`) -/

/-- Columns of the matrix that are not pivot columns, in increasing
order. -/
def freeCols (P : List (Fin n)) : List (Fin n) :=
  (List.finRange n).filter (fun j => decide (j ∉ P))

/-- Modelled from the spec, §4.3: the null-space basis vector of the free
column `f` sets the free variable `f` to 1, all other free variables
to 0, and each pivot variable to the negative of the RREF entry in column
`f` at that pivot's row. -/
def nullVector (R : Matrix (Fin m) (Fin n) ℚ) (P : List (Fin n)) (f : Fin n) : Fin n → ℚ :=
  fun j =>
    if j = f then 1
    else
      match P.findIdx? (fun p => decide (p = j)) with
      | some i => if h : i < m then -(R ⟨i, h⟩ f) else 0
      | none => 0

/-- Null-space basis vectors, ordered by increasing free-column index
(spec §4.3). -/
def nullspaceVecs (R : Matrix (Fin m) (Fin n) ℚ) (P : List (Fin n)) : List (Fin n → ℚ) :=
  (freeCols P).map (nullVector R P)

/-! ### Serialization (`sympy_to_python`, src/matrix_engine.py lines
10-34) -/

/-- Python-native value produced by `sympy_to_python` for a rational
entry: an exact `int` or a `float` (whose exact binary64 value is
carried). -/
inductive PyVal where
  | int (z : ℤ)
  | float (x : ℚ)
deriving DecidableEq

/-- Conversion of one SymPy rational by the body of `sympy_to_python`
(src/matrix_engine.py lines 22-27): an `Integer` becomes a Python `int`;
any other `Rational` hits the `float(obj)` branch and becomes the nearest
binary64 double.  The function is decorated `@lru_cache(maxsize=256)`
(line 10), and the wrapper hashes the argument before this body runs, so
the body is reached only for hashable (scalar) arguments; the decorated
call is `sympyToPythonCached` below, which raises `TypeError` whenever
the argument is a Python list. -/
def sympyToPython (q : ℚ) : PyVal :=
  if q.den = 1 then .int q.num else .float (toDouble q)

/-- Numeric value held by a serialized entry. -/
def pyValToRat : PyVal → ℚ
  | .int z => (z : ℚ)
  | .float x => x

/-- Entrywise rendering of a matrix as its list of rows: the conversion
the call `sympy_to_python(self.matrix.tolist())` (src/matrix_engine.py
line 175) is written to perform.  The decorated call itself never
returns: its argument is a Python list, so the `lru_cache` wrapper
raises `TypeError` before any entry is converted (see
`computeAllSpacesPy`). -/
def serMat (M : Matrix (Fin m) (Fin n) ℚ) : List (List PyVal) :=
  (List.finRange m).map fun i => (List.finRange n).map fun j => sympyToPython (M i j)

/-- Entrywise rendering of an `m`-component column vector the way SymPy's
`Matrix.tolist()` renders an `m × 1` matrix: one singleton row per
component.  Like `serMat`, this is the conversion the basis
serialization sites (lines 187, 199, 205) are written to perform; the
decorated calls there receive lists and raise `TypeError` instead. -/
def serColVec (v : Fin m → ℚ) : List (List PyVal) :=
  (List.finRange m).map fun i => [sympyToPython (v i)]

/-- Entrywise rendering of an `n`-component row vector the way SymPy's
`Matrix.tolist()` renders a `1 × n` matrix: a single row.  Like `serMat`,
the decorated call at the row-space site (line 193) receives a list and
raises `TypeError` instead of performing this conversion. -/
def serRowVec (v : Fin n → ℚ) : List (List PyVal) :=
  [(List.finRange n).map fun j => sympyToPython (v j)]

/-! ### Result assembler (`compute_all_spaces`, src/matrix_engine.py
lines 157-218).  The LaTeX rendering strings and the two human-readable
`dimension_check` sentences are presentation-only and are not modelled;
every numeric field is. -/

structure MatrixInfo where
  data : List (List PyVal)
  rows : ℕ
  cols : ℕ
deriving DecidableEq

structure RrefInfo where
  matrix : List (List PyVal)
  pivots : List ℕ
deriving DecidableEq

structure SpaceResult where
  basis : List (List (List PyVal))
  dimension : ℕ
  description : String
deriving DecidableEq

structure DimensionCheck where
  valid : Bool
deriving DecidableEq

structure ComputationResult where
  matrix : MatrixInfo
  rank : ℕ
  rref : RrefInfo
  column_space : SpaceResult
  row_space : SpaceResult
  null_space : SpaceResult
  left_null_space : SpaceResult
  dimension_check : DimensionCheck
  cached : Bool
deriving DecidableEq

/-- The parsed matrix as a function, entries read off the row list
(out-of-range reads default to 0 and never occur for valid input). -/
def toMat (rows : List (List ℚ)) :
    Matrix (Fin rows.length) (Fin (rows.headD []).length) ℚ :=
  fun i j => (rows.getD i []).getD j 0

/-- The result dict described field by field by the literal of
`compute_all_spaces` (src/matrix_engine.py lines 157-218): matrix info,
rank, RREF with pivot list, the four subspace bases with their dimensions
and descriptions, and the rank–nullity cross-check flag.  This is the
assembly the source is written to produce; the running program never
completes it, because the first field's serialization call raises
`TypeError` (`computeAllSpacesPy` below models the executed function).
The cache layer stores values of this result type, and the cache-level
theorems quantify over arbitrary stored results. -/
def computeAllSpaces (rows : List (List ℚ)) : ComputationResult :=
  let mm := rows.length
  let nn := (rows.headD []).length
  let M := toMat rows
  let RP := rref M
  let R := RP.1
  let P := RP.2
  let rank := P.length
  let colBasis := P.map fun p => serColVec (fun i => M i p)
  let rowBasis := ((List.finRange mm).take rank).map fun i => serRowVec (R i)
  let nullBasis := (nullspaceVecs R P).map serColVec
  let RPt := rref (Matrix.transpose M)
  let leftBasis := (nullspaceVecs RPt.1 RPt.2).map serColVec
  { matrix := { data := serMat M, rows := mm, cols := nn },
    rank := rank,
    rref := { matrix := serMat R, pivots := P.map Fin.val },
    column_space := { basis := colBasis, dimension := colBasis.length,
                      description := "Subspace of R^" ++ toString mm },
    row_space := { basis := rowBasis, dimension := rowBasis.length,
                   description := "Subspace of R^" ++ toString nn },
    null_space := { basis := nullBasis, dimension := nullBasis.length,
                    description := "Subspace of R^" ++ toString nn },
    left_null_space := { basis := leftBasis, dimension := leftBasis.length,
                         description := "Subspace of R^" ++ toString mm },
    dimension_check := { valid := decide (colBasis.length = rank ∧ rowBasis.length = rank ∧
      nullBasis.length = nn - rank ∧ leftBasis.length = mm - rank) },
    cached := false }

/-- Idealized engine pipeline: validation/parsing followed by the
intended assembly (`MatrixEngine.__init__` + the result dict of
`compute_all_spaces`).  The pipeline as executed is `computeFromRawPy`
below. -/
def computeFromRaw (raw : List (List Entry)) : Except ValidationError ComputationResult :=
  (validateAndParse raw).map computeAllSpaces

/-! ### The `lru_cache` failure of `sympy_to_python`

`sympy_to_python` (src/matrix_engine.py line 10) is decorated
`@lru_cache(maxsize=256)`.  `functools.lru_cache` hashes the argument
tuple before the wrapped body runs, and a Python `list` is unhashable,
so a call whose argument is a list raises `TypeError: unhashable type:
'list'` without ever reaching the body.  `compute_all_spaces` passes a
list at every serialization call site (lines 175, 182, 187, 193, 199,
205); the first of them is evaluated while building the `"matrix"` entry
of the result dict, so the assembly above is never completed by the
running program: the exception propagates out of `compute_all_spaces`
into the handler's generic `except Exception` branch (src/main.py lines
240-242, HTTP 500). -/

/-- Python exception escaping the engine past validation:
`TypeError: unhashable type: 'list'`. -/
inductive PyError where
  | typeError
deriving DecidableEq

/-- Shape of an argument passed to the decorated `sympy_to_python`: a
scalar (a SymPy number, hashable) or a Python list (unhashable). -/
inductive PyArg where
  | scalar (q : ℚ)
  | list (args : List PyArg)

/-- The decorated `sympy_to_python` as actually called: `lru_cache`
hashes the argument first, so a scalar reaches the body (whose
conversion is `sympyToPython`) while a list argument raises `TypeError`
inside the cache wrapper before the body runs. -/
def sympyToPythonCached : PyArg → Except PyError PyVal
  | .scalar q => .ok (sympyToPython q)
  | .list _ => .error .typeError

/-- The argument `self.matrix.tolist()` handed to `sympy_to_python` at
src/matrix_engine.py line 175: a list of rows, each a list of scalars —
always a Python list, whatever the matrix. -/
def tolistArg (rows : List (List ℚ)) : PyArg :=
  .list (rows.map fun r => .list (r.map .scalar))

/-- `compute_all_spaces` as the program executes it: the first entry of
the returned dict literal calls the decorated `sympy_to_python` on the
(unhashable) `tolist()` of the matrix (line 175), so the remaining
assembly — rendered by `computeAllSpaces` — is reached only if that call
returns a value. -/
def computeAllSpacesPy (rows : List (List ℚ)) : Except PyError ComputationResult :=
  match sympyToPythonCached (tolistArg rows) with
  | .error e => .error e
  | .ok _ => .ok (computeAllSpaces rows)

/-- The engine pipeline as executed: validation/parsing
(`MatrixEngine.__init__`) followed by `compute_all_spaces` with its
serialization failure path. -/
def computeFromRawPy (raw : List (List Entry)) :
    Except (ValidationError ⊕ PyError) ComputationResult :=
  match validateAndParse raw with
  | .error err => .error (.inl err)
  | .ok rows =>
    match computeAllSpacesPy rows with
    | .error e => .error (.inr e)
    | .ok res => .ok res

/-! ### Computation cache and request handler

The store is `cachetools.TTLCache` (library code, not under `src/`);
modelled from the spec, §4.5: entries carry the fingerprint key, the
result, and the insertion timestamp; an entry is fresh while
`now < insertedAt + ttl` and expired entries are purged on access; the
eviction order of §4.5 is represented by list position (newest first),
eviction removing from the tail.  The SHA-256 fingerprint of
`generate_cache_key` (src/main.py lines 152-158) is a digest of the
canonical serialization of the raw matrix; it is modelled by the raw
matrix itself (equal matrices yield equal keys, and the digest's
injectivity on this domain is abstracted away). -/

structure CacheEntry where
  key : List (List Entry)
  value : ComputationResult
  insertedAt : ℕ
deriving DecidableEq

structure CacheState where
  entries : List CacheEntry
  capacity : ℕ
  ttl : ℕ
deriving DecidableEq

/-- Entries whose age has not reached the time-to-live. -/
def freshEntries (st : CacheState) (now : ℕ) : List CacheEntry :=
  st.entries.filter fun e => decide (now < e.insertedAt + st.ttl)

/-- Cache lookup: the value of the first fresh entry with the given
key. -/
def cacheLookup (st : CacheState) (now : ℕ) (k : List (List Entry)) :
    Option ComputationResult :=
  ((freshEntries st now).find? fun e => decide (e.key = k)).map fun e => e.value

/-- Cache insertion (`computation_cache[cache_key] = result`): purge
expired entries, drop any previous entry for the key, evict from the tail
down to capacity, and prepend the new entry with a fresh timestamp. -/
def cacheInsert (st : CacheState) (now : ℕ) (k : List (List Entry))
    (v : ComputationResult) : CacheState :=
  { st with entries := { key := k, value := v, insertedAt := now } ::
      (((freshEntries st now).filter fun e => decide (¬ e.key = k)).take (st.capacity - 1)) }

/-- `clear_cache` (src/main.py lines 328-336): `computation_cache.clear()`
removes all entries unconditionally. -/
def cacheClear (st : CacheState) : CacheState := { st with entries := [] }

/-- The `/api/compute` handler `compute_subspaces` (src/main.py lines
190-242), with the process-wide cache passed as explicit state.  On a hit
the stored result dict is mutated in place (`cached_result["cached"] =
True`) and returned; on a miss the matrix is validated, computed, tagged
`cached = False` and stored.  A `ValueError` becomes the 400 error
branch.  The miss branch stores the intended assembly `computeAllSpaces`;
in the running program that branch instead raises `TypeError` (see
`computeAllSpacesPy`), so of this handler only the hit path and the
cache operations reflect achieved behavior. -/
def computeSubspaces (st : CacheState) (now : ℕ) (raw : List (List Entry)) :
    Except ValidationError ComputationResult × CacheState :=
  match (freshEntries st now).find? (fun e => decide (e.key = raw)) with
  | some e =>
    let res := { e.value with cached := true }
    let newEntries := (freshEntries st now).map
      (fun e2 => if e2.key = raw then { e2 with value := res } else e2)
    (Except.ok res, { st with entries := newEntries })
  | none =>
    match validateAndParse raw with
    | .error err => (.error err, { st with entries := freshEntries st now })
    | .ok rows =>
      let res := computeAllSpaces rows
      (.ok res, cacheInsert st now raw res)

/-! ### Pivot search lemmas -/

theorem findPivotGo_some {M : Matrix (Fin m) (Fin n) ℚ} {c : Fin n} :
    ∀ {fuel k0 : ℕ} {r : Fin m}, findPivotGo M c fuel k0 = some r →
      k0 ≤ (r : ℕ) ∧ M r c ≠ 0 := by
  intro fuel
  induction fuel with
  | zero => intro k0 r h; simp [findPivotGo] at h
  | succ fuel ih =>
    intro k0 r h
    simp only [findPivotGo] at h
    by_cases hk : k0 < m
    · rw [dif_pos hk] at h
      by_cases hz : M ⟨k0, hk⟩ c = 0
      · rw [if_pos hz] at h
        rcases ih h with ⟨h1, h2⟩
        exact ⟨Nat.le_of_succ_le h1, h2⟩
      · rw [if_neg hz] at h
        cases h
        exact ⟨Nat.le_refl _, hz⟩
    · rw [dif_neg hk] at h; cases h

theorem findPivotGo_none {M : Matrix (Fin m) (Fin n) ℚ} {c : Fin n} :
    ∀ {fuel k0 : ℕ}, m ≤ k0 + fuel → findPivotGo M c fuel k0 = none →
      ∀ r : Fin m, k0 ≤ (r : ℕ) → M r c = 0 := by
  intro fuel
  induction fuel with
  | zero =>
    intro k0 hm _ r hr
    exact absurd (Nat.lt_of_lt_of_le r.isLt (by omega)) (Nat.not_lt.mpr hr)
  | succ fuel ih =>
    intro k0 hm h r hr
    simp only [findPivotGo] at h
    by_cases hk : k0 < m
    · rw [dif_pos hk] at h
      by_cases hz : M ⟨k0, hk⟩ c = 0
      · rw [if_pos hz] at h
        rcases Nat.eq_or_lt_of_le hr with heq | hlt
        · have : r = ⟨k0, hk⟩ := Fin.ext heq.symm
          rw [this]; exact hz
        · exact ih (by omega) h r hlt
      · rw [if_neg hz] at h; cases h
    · exact absurd (Nat.lt_of_lt_of_le r.isLt (by omega)) (Nat.not_lt.mpr hr)

theorem findPivot_some {M : Matrix (Fin m) (Fin n) ℚ} {c : Fin n} {k : ℕ} {r : Fin m}
    (h : findPivot M k c = some r) : k ≤ (r : ℕ) ∧ M r c ≠ 0 :=
  findPivotGo_some h

theorem findPivot_none {M : Matrix (Fin m) (Fin n) ℚ} {c : Fin n} {k : ℕ}
    (h : findPivot M k c = none) : ∀ r : Fin m, k ≤ (r : ℕ) → M r c = 0 :=
  findPivotGo_none (Nat.le_add_left m k) h

theorem findPivot_here {M : Matrix (Fin m) (Fin n) ℚ} {c : Fin n} {k : ℕ}
    (hk : k < m) (h : M ⟨k, hk⟩ c ≠ 0) : findPivot M k c = some ⟨k, hk⟩ := by
  unfold findPivot
  obtain ⟨m', rfl⟩ : ∃ m', m = m' + 1 := ⟨m - 1, by omega⟩
  simp only [findPivotGo]
  rw [dif_pos hk, if_neg h]

/-! ### Row operation evaluation lemmas -/

theorem rowSwap_fst {M : Matrix (Fin m) (Fin n) ℚ} {a b : Fin m} {j : Fin n} :
    rowSwap M a b a j = M b j := by
  simp [rowSwap]

theorem rowSwap_snd {M : Matrix (Fin m) (Fin n) ℚ} {a b : Fin m} {j : Fin n} :
    rowSwap M a b b j = M a j := by
  by_cases hba : b = a
  · subst hba; simp [rowSwap]
  · simp [rowSwap, hba]

theorem rowSwap_other {M : Matrix (Fin m) (Fin n) ℚ} {a b i : Fin m} {j : Fin n}
    (ha : i ≠ a) (hb : i ≠ b) : rowSwap M a b i j = M i j := by
  simp [rowSwap, ha, hb]

theorem rowScale_self {M : Matrix (Fin m) (Fin n) ℚ} {a : Fin m} {c : ℚ} {j : Fin n} :
    rowScale M a c a j = c * M a j := by
  simp [rowScale]

theorem rowScale_other {M : Matrix (Fin m) (Fin n) ℚ} {a i : Fin m} {c : ℚ} {j : Fin n}
    (h : i ≠ a) : rowScale M a c i j = M i j := by
  simp [rowScale, h]

theorem rowEliminate_self {M : Matrix (Fin m) (Fin n) ℚ} {a : Fin m} {p j : Fin n} :
    rowEliminate M a p a j = M a j := by
  simp [rowEliminate]

theorem rowEliminate_other {M : Matrix (Fin m) (Fin n) ℚ} {a i : Fin m} {p j : Fin n}
    (h : i ≠ a) : rowEliminate M a p i j = M i j - M i p * M a j := by
  simp [rowEliminate, h]

/-! ### Pivot step lemmas -/

theorem pivotStep_pivot_one {M : Matrix (Fin m) (Fin n) ℚ} {k r : Fin m} {c : Fin n}
    (hr : M r c ≠ 0) : pivotStep M k c r k c = 1 := by
  unfold pivotStep
  rw [rowEliminate_self, rowScale_self, rowSwap_fst]
  exact inv_mul_cancel₀ hr

theorem pivotStep_col_zero {M : Matrix (Fin m) (Fin n) ℚ} {k r : Fin m} {c : Fin n}
    (hr : M r c ≠ 0) {i : Fin m} (hi : i ≠ k) : pivotStep M k c r i c = 0 := by
  unfold pivotStep
  rw [rowEliminate_other hi, rowScale_other hi, rowScale_self, rowSwap_fst,
    inv_mul_cancel₀ hr]
  ring

theorem pivotStep_col_frame {M : Matrix (Fin m) (Fin n) ℚ} {k r : Fin m} {c : Fin n}
    {j : Fin n} (hkr : (k : ℕ) ≤ (r : ℕ))
    (hcol : ∀ i : Fin m, (k : ℕ) ≤ (i : ℕ) → M i j = 0) :
    ∀ i : Fin m, pivotStep M k c r i j = M i j := by
  have hMk : M k j = 0 := hcol k (Nat.le_refl _)
  have hMr : M r j = 0 := hcol r hkr
  have hM1 : ∀ i : Fin m, rowSwap M k r i j = M i j := by
    intro i
    by_cases hik : i = k
    · subst hik; rw [rowSwap_fst, hMr, hMk]
    · by_cases hir : i = r
      · subst hir; rw [rowSwap_snd, hMr, hMk]
      · exact rowSwap_other hik hir
  intro i
  unfold pivotStep
  by_cases hik : i = k
  · subst hik
    rw [rowEliminate_self, rowScale_self, hM1 i, hMk, mul_zero]
  · rw [rowEliminate_other hik, rowScale_other hik, rowScale_self, hM1 k, hMk,
      mul_zero, mul_zero, sub_zero, hM1 i]

/-! ### The RREF loop invariant

`RrefInv M R k c P` collects what one call `rrefGo fuel M k c = (R, P)`
guarantees: the new pivots `P` are strictly increasing columns at or past
`c`; the cursor never passes the row count; rows at or below the final
cursor are entirely zero; pivot `i` of `P` sits in row `k + i` with a unit
column and leading zeros; rows above the cursor are untouched on columns
before `c`; and any column that is zero on all rows at or below the cursor
is untouched everywhere. -/

structure RrefInv (M R : Matrix (Fin m) (Fin n) ℚ) (k c : ℕ) (P : List (Fin n)) : Prop where
  sorted : List.Pairwise (· < ·) P
  ge_c : ∀ p ∈ P, c ≤ (p : ℕ)
  len_le : k + P.length ≤ m
  tail_zero : ∀ r : Fin m, k + P.length ≤ (r : ℕ) → ∀ j : Fin n, R r j = 0
  pivot_struct : ∀ i : ℕ, ∀ hi : i < P.length, ∀ hrow : k + i < m,
    R ⟨k + i, hrow⟩ (P.get ⟨i, hi⟩) = 1 ∧
    (∀ r : Fin m, (r : ℕ) ≠ k + i → R r (P.get ⟨i, hi⟩) = 0) ∧
    (∀ j : Fin n, (j : ℕ) < (P.get ⟨i, hi⟩ : ℕ) → R ⟨k + i, hrow⟩ j = 0)
  upper_frame : ∀ t : Fin m, (t : ℕ) < k → ∀ j : Fin n, (j : ℕ) < c → R t j = M t j
  col_frame : ∀ j : Fin n, (∀ r : Fin m, k ≤ (r : ℕ) → M r j = 0) →
    ∀ r : Fin m, R r j = M r j

theorem rrefGo_spec : ∀ (fuel : ℕ) (M : Matrix (Fin m) (Fin n) ℚ) (k c : ℕ),
    n ≤ c + fuel → k ≤ m →
    (∀ r : Fin m, k ≤ (r : ℕ) → ∀ j : Fin n, (j : ℕ) < c → M r j = 0) →
    RrefInv M (rrefGo fuel M k c).1 k c (rrefGo fuel M k c).2 := by
  intro fuel
  induction fuel with
  | zero =>
    intro M k c hn hk h3
    refine ⟨List.Pairwise.nil, ?_, ?_, ?_, ?_, ?_, ?_⟩
    · intro p hp; simp [rrefGo] at hp
    · simpa [rrefGo] using hk
    · intro r hr j
      exact h3 r (by simpa [rrefGo] using hr) j (by have := j.isLt; omega)
    · intro i hi; simp [rrefGo] at hi
    · intro t _ j _; rfl
    · intro j _ r; rfl
  | succ fuel ih =>
    intro M k c hn hk h3
    by_cases hc : c < n
    · cases hfp : findPivot M k ⟨c, hc⟩ with
      | none =>
        have hz : ∀ r : Fin m, k ≤ (r : ℕ) → M r ⟨c, hc⟩ = 0 := findPivot_none hfp
        have h3' : ∀ r : Fin m, k ≤ (r : ℕ) → ∀ j : Fin n, (j : ℕ) < c + 1 → M r j = 0 := by
          intro r hr j hj
          rcases Nat.lt_or_ge (j : ℕ) c with h | h
          · exact h3 r hr j h
          · have hj' : j = ⟨c, hc⟩ := Fin.ext (show (j : ℕ) = c by omega)
            rw [hj']; exact hz r hr
        have IH := ih M k (c + 1) (by omega) hk h3'
        have hred : rrefGo (fuel + 1) M k c = rrefGo fuel M k (c + 1) := by
          simp only [rrefGo, dif_pos hc, hfp]
        rw [hred]
        exact ⟨IH.sorted, fun p hp => Nat.le_of_succ_le (IH.ge_c p hp), IH.len_le,
          IH.tail_zero, IH.pivot_struct,
          fun t ht j hj => IH.upper_frame t ht j (Nat.lt_succ_of_lt hj),
          IH.col_frame⟩
      | some r =>
        obtain ⟨hkr, hMrc⟩ := findPivot_some hfp
        have hkm : k < m := Nat.lt_of_le_of_lt hkr r.isLt
        have hone : pivotStep M ⟨k, hkm⟩ ⟨c, hc⟩ r ⟨k, hkm⟩ ⟨c, hc⟩ = 1 :=
          pivotStep_pivot_one hMrc
        have hzero : ∀ i : Fin m, i ≠ ⟨k, hkm⟩ →
            pivotStep M ⟨k, hkm⟩ ⟨c, hc⟩ r i ⟨c, hc⟩ = 0 :=
          fun i hi => pivotStep_col_zero hMrc hi
        have hframe_lt : ∀ j : Fin n, (j : ℕ) < c →
            ∀ i : Fin m, pivotStep M ⟨k, hkm⟩ ⟨c, hc⟩ r i j = M i j :=
          fun j hj => pivotStep_col_frame hkr (fun i hi => h3 i hi j hj)
        have h3' : ∀ i : Fin m, k + 1 ≤ (i : ℕ) → ∀ j : Fin n, (j : ℕ) < c + 1 →
            pivotStep M ⟨k, hkm⟩ ⟨c, hc⟩ r i j = 0 := by
          intro i hi j hj
          rcases Nat.lt_or_ge (j : ℕ) c with h | h
          · rw [hframe_lt j h i]; exact h3 i (by omega) j h
          · have hj' : j = ⟨c, hc⟩ := Fin.ext (show (j : ℕ) = c by omega)
            rw [hj']
            exact hzero i (Fin.ne_of_val_ne (show (i : ℕ) ≠ k by omega))
        have IH := ih (pivotStep M ⟨k, hkm⟩ ⟨c, hc⟩ r) (k + 1) (c + 1) (by omega) hkm h3'
        have hred : rrefGo (fuel + 1) M k c =
            ((rrefGo fuel (pivotStep M ⟨k, hkm⟩ ⟨c, hc⟩ r) (k + 1) (c + 1)).1,
              ⟨c, hc⟩ :: (rrefGo fuel (pivotStep M ⟨k, hkm⟩ ⟨c, hc⟩ r) (k + 1) (c + 1)).2) := by
          simp only [rrefGo, dif_pos hc, hfp, dif_pos hkm]
        rw [hred]
        have hcolR : ∀ i : Fin m,
            (rrefGo fuel (pivotStep M ⟨k, hkm⟩ ⟨c, hc⟩ r) (k + 1) (c + 1)).1 i ⟨c, hc⟩ =
              pivotStep M ⟨k, hkm⟩ ⟨c, hc⟩ r i ⟨c, hc⟩ :=
          IH.col_frame ⟨c, hc⟩
            (fun r2 hr2 => hzero r2 (Fin.ne_of_val_ne (show (r2 : ℕ) ≠ k by omega)))
        refine ⟨?_, ?_, ?_, ?_, ?_, ?_, ?_⟩
        · exact List.pairwise_cons.mpr
            ⟨fun p hp => Fin.lt_def.mpr (Nat.lt_of_succ_le (IH.ge_c p hp)), IH.sorted⟩
        · intro p hp
          rcases List.mem_cons.mp hp with h | h
          · rw [h]
          · exact Nat.le_of_succ_le (IH.ge_c p h)
        · have := IH.len_le; simp only [List.length_cons]; omega
        · intro r2 hr2 j
          refine IH.tail_zero r2 ?_ j
          simp only [List.length_cons] at hr2
          omega
        · intro i hi hrow
          match i with
          | 0 =>
            have hrow0 : (⟨k + 0, hrow⟩ : Fin m) = ⟨k, hkm⟩ := Fin.ext rfl
            refine ⟨?_, ?_, ?_⟩
            · rw [hrow0]
              show (rrefGo fuel _ (k+1) (c+1)).1 _ (⟨c, hc⟩) = 1
              rw [hcolR ⟨k, hkm⟩, hone]
            · intro r2 hr2
              show (rrefGo fuel _ (k+1) (c+1)).1 r2 (⟨c, hc⟩) = 0
              rw [hcolR r2]
              exact hzero r2 (Fin.ne_of_val_ne (show (r2 : ℕ) ≠ k by omega))
            · intro j hj
              rw [hrow0]
              have hjc : (j : ℕ) < c := hj
              have h1 : (rrefGo fuel (pivotStep M ⟨k, hkm⟩ ⟨c, hc⟩ r) (k + 1) (c + 1)).1
                  ⟨k, hkm⟩ j = pivotStep M ⟨k, hkm⟩ ⟨c, hc⟩ r ⟨k, hkm⟩ j :=
                IH.upper_frame ⟨k, hkm⟩ (show k < k + 1 by omega) j
                  (show (j : ℕ) < c + 1 by omega)
              rw [h1, hframe_lt j hjc ⟨k, hkm⟩]
              exact h3 ⟨k, hkm⟩ (Nat.le_refl k) j hjc
          | i' + 1 =>
            have hi' : i' <
                (rrefGo fuel (pivotStep M ⟨k, hkm⟩ ⟨c, hc⟩ r) (k + 1) (c + 1)).2.length := by
              have := hi
              simp only [List.length_cons] at this
              omega
            have hrow' : (k + 1) + i' < m := by omega
            obtain ⟨p1, p2, p3⟩ := IH.pivot_struct i' hi' hrow'
            have hrowe : (⟨k + (i' + 1), hrow⟩ : Fin m) = ⟨(k + 1) + i', hrow'⟩ :=
              Fin.ext (show k + (i' + 1) = (k + 1) + i' by omega)
            refine ⟨?_, ?_, ?_⟩
            · rw [hrowe]; exact p1
            · intro r2 hr2; exact p2 r2 (by omega)
            · intro j hj; rw [hrowe]; exact p3 j hj
        · intro t ht j hj
          have h1 := IH.upper_frame t (by omega) j (by omega)
          rw [h1, hframe_lt j hj t]
        · intro j hcol r2
          have hM'j : ∀ i : Fin m, pivotStep M ⟨k, hkm⟩ ⟨c, hc⟩ r i j = M i j :=
            pivotStep_col_frame hkr hcol
          have h2 : ∀ r3 : Fin m, k + 1 ≤ (r3 : ℕ) →
              pivotStep M ⟨k, hkm⟩ ⟨c, hc⟩ r r3 j = 0 :=
            fun r3 hr3 => (hM'j r3).trans (hcol r3 (by omega))
          rw [IH.col_frame j h2 r2, hM'j r2]
    · have hred : rrefGo (fuel + 1) M k c = (M, []) := by
        simp only [rrefGo, dif_neg hc]
      rw [hred]
      refine ⟨List.Pairwise.nil, ?_, ?_, ?_, ?_, ?_, ?_⟩
      · intro p hp; simp at hp
      · simpa using hk
      · intro r hr j
        exact h3 r (by simpa using hr) j (by omega)
      · intro i hi; simp at hi
      · intro t _ j _; rfl
      · intro j _ r; rfl

/-! ### RREF shape at top level -/

/-- The echelon shape of a complete reduction `rref M = (R, P)` (spec §3,
"RREF Result"): pivot columns strictly increase; pivot `i` sits in row `i`
with a unit column and leading zeros; rows below the last pivot are
entirely zero. -/
structure IsRREF (R : Matrix (Fin m) (Fin n) ℚ) (P : List (Fin n)) : Prop where
  sorted : List.Pairwise (· < ·) P
  len_le : P.length ≤ m
  pivot_one : ∀ i : ℕ, ∀ hi : i < P.length, ∀ hrow : i < m, R ⟨i, hrow⟩ (P.get ⟨i, hi⟩) = 1
  pivot_col : ∀ i : ℕ, ∀ hi : i < P.length, ∀ r : Fin m, (r : ℕ) ≠ i →
    R r (P.get ⟨i, hi⟩) = 0
  lead_zero : ∀ i : ℕ, ∀ hi : i < P.length, ∀ hrow : i < m, ∀ j : Fin n,
    (j : ℕ) < (P.get ⟨i, hi⟩ : ℕ) → R ⟨i, hrow⟩ j = 0
  zero_rows : ∀ r : Fin m, P.length ≤ (r : ℕ) → ∀ j : Fin n, R r j = 0

theorem rref_isRREF (M : Matrix (Fin m) (Fin n) ℚ) : IsRREF (rref M).1 (rref M).2 := by
  show IsRREF (rrefGo n M 0 0).1 (rrefGo n M 0 0).2
  have h := rrefGo_spec n M 0 0 (by omega) (Nat.zero_le m)
    (fun r _ j hj => absurd hj (Nat.not_lt_zero _))
  refine ⟨h.sorted, ?_, ?_, ?_, ?_, ?_⟩
  · have := h.len_le; omega
  · intro i hi hrow
    have p1 := (h.pivot_struct i hi (show 0 + i < m by omega)).1
    simpa [Nat.zero_add] using p1
  · intro i hi r2 hr2
    have hlm := h.len_le
    have p2 := (h.pivot_struct i hi (show 0 + i < m by omega)).2.1
    exact p2 r2 (by omega)
  · intro i hi hrow j hj
    have p3 := (h.pivot_struct i hi (show 0 + i < m by omega)).2.2
    have p3' := p3 j hj
    simpa [Nat.zero_add] using p3'
  · intro r2 hr2 j
    exact h.tail_zero r2 (by omega) j

/-! ### Idempotence of the reducer -/

theorem rowSwap_self (M : Matrix (Fin m) (Fin n) ℚ) (a : Fin m) : rowSwap M a a = M := by
  funext i j
  by_cases h : i = a
  · subst h; exact rowSwap_fst
  · exact rowSwap_other h h

theorem rowScale_one (M : Matrix (Fin m) (Fin n) ℚ) (a : Fin m) : rowScale M a 1 = M := by
  funext i j
  by_cases h : i = a
  · subst h; rw [rowScale_self, one_mul]
  · exact rowScale_other h

theorem rowEliminate_id {M : Matrix (Fin m) (Fin n) ℚ} {a : Fin m} {p : Fin n}
    (h : ∀ i : Fin m, i ≠ a → M i p = 0) : rowEliminate M a p = M := by
  funext i j
  by_cases hia : i = a
  · subst hia; exact rowEliminate_self
  · rw [rowEliminate_other hia, h i hia, zero_mul, sub_zero]

theorem findPivotGo_eq_none {M : Matrix (Fin m) (Fin n) ℚ} {c : Fin n} :
    ∀ {fuel k0 : ℕ}, (∀ r : Fin m, k0 ≤ (r : ℕ) → M r c = 0) →
      findPivotGo M c fuel k0 = none := by
  intro fuel
  induction fuel with
  | zero => intro k0 _; rfl
  | succ fuel ih =>
    intro k0 h
    simp only [findPivotGo]
    by_cases hk : k0 < m
    · rw [dif_pos hk, if_pos (h ⟨k0, hk⟩ (Nat.le_refl _))]
      exact ih (fun r hr => h r (by omega))
    · rw [dif_neg hk]

theorem findPivot_eq_none {M : Matrix (Fin m) (Fin n) ℚ} {c : Fin n} {k : ℕ}
    (h : ∀ r : Fin m, k ≤ (r : ℕ) → M r c = 0) : findPivot M k c = none :=
  findPivotGo_eq_none h

theorem rrefGo_fixed : ∀ (fuel : ℕ) (R : Matrix (Fin m) (Fin n) ℚ) (P : List (Fin n)) (k c : ℕ),
    IsRREF R P → n ≤ c + fuel → k ≤ P.length →
    (∀ i : ℕ, ∀ hi : i < P.length, ((P.get ⟨i, hi⟩ : ℕ) < c ↔ i < k)) →
    rrefGo fuel R k c = (R, P.drop k) := by
  intro fuel
  induction fuel with
  | zero =>
    intro R P k c hR hn hk hsplit
    have hlen : P.length ≤ k := by
      by_contra hcon
      push_neg at hcon
      have h1 := (hsplit k hcon).mp
        (Nat.lt_of_lt_of_le (P.get ⟨k, hcon⟩).isLt (by omega))
      omega
    simp only [rrefGo]
    rw [List.drop_eq_nil_of_le hlen]
  | succ fuel ih =>
    intro R P k c hR hn hk hsplit
    have hmono : ∀ (i1 i2 : ℕ) (h1 : i1 < P.length) (h2 : i2 < P.length), i1 < i2 →
        (P.get ⟨i1, h1⟩ : ℕ) < (P.get ⟨i2, h2⟩ : ℕ) := by
      intro i1 i2 h1 h2 hlt
      exact Fin.lt_def.mp (List.pairwise_iff_get.mp hR.sorted ⟨i1, h1⟩ ⟨i2, h2⟩ hlt)
    by_cases hc : c < n
    · by_cases hpc : ∃ hk2 : k < P.length, (P.get ⟨k, hk2⟩ : ℕ) = c
      · obtain ⟨hk2, hPk⟩ := hpc
        have hkm : k < m := Nat.lt_of_lt_of_le hk2 hR.len_le
        have hcf : P.get ⟨k, hk2⟩ = ⟨c, hc⟩ := Fin.ext hPk
        have hone : R ⟨k, hkm⟩ ⟨c, hc⟩ = 1 := by
          rw [← hcf]; exact hR.pivot_one k hk2 hkm
        have hfind : findPivot R k ⟨c, hc⟩ = some ⟨k, hkm⟩ :=
          findPivot_here hkm (by rw [hone]; exact one_ne_zero)
        have hcol0 : ∀ i : Fin m, i ≠ ⟨k, hkm⟩ → R i ⟨c, hc⟩ = 0 := by
          intro i hi
          rw [← hcf]
          exact hR.pivot_col k hk2 i (fun hv => hi (Fin.ext hv))
        have hps : pivotStep R ⟨k, hkm⟩ ⟨c, hc⟩ ⟨k, hkm⟩ = R := by
          unfold pivotStep
          simp only [rowSwap_self, hone, inv_one, rowScale_one]
          exact rowEliminate_id hcol0
        have hsplit' : ∀ i : ℕ, ∀ hi : i < P.length,
            ((P.get ⟨i, hi⟩ : ℕ) < c + 1 ↔ i < k + 1) := by
          intro i hi
          constructor
          · intro hlt
            by_contra hcon
            push_neg at hcon
            have hik : k < i := by omega
            have := hmono k i hk2 hi hik
            omega
          · intro hlt
            rcases Nat.lt_or_ge i k with h1 | h1
            · have := (hsplit i hi).mpr h1; omega
            · have : i = k := by omega
              subst this
              omega
        have IH := ih R P (k + 1) (c + 1) hR (by omega) hk2 hsplit'
        have hred : rrefGo (fuel + 1) R k c =
            ((rrefGo fuel (pivotStep R ⟨k, hkm⟩ ⟨c, hc⟩ ⟨k, hkm⟩) (k + 1) (c + 1)).1,
              ⟨c, hc⟩ :: (rrefGo fuel (pivotStep R ⟨k, hkm⟩ ⟨c, hc⟩ ⟨k, hkm⟩) (k + 1) (c + 1)).2) := by
          simp only [rrefGo, dif_pos hc, hfind, dif_pos hkm]
        rw [hred, hps, IH]
        have hdrop : P.drop k = P.get ⟨k, hk2⟩ :: P.drop (k + 1) :=
          (List.get_cons_drop P ⟨k, hk2⟩).symm
        rw [hdrop, hcf]
      · have hpc' : ∀ hk2 : k < P.length, (P.get ⟨k, hk2⟩ : ℕ) ≠ c := by
          intro hk2 heq
          exact hpc ⟨hk2, heq⟩
        have hnone : findPivot R k ⟨c, hc⟩ = none := by
          apply findPivot_eq_none
          intro r2 hr2
          rcases Nat.lt_or_ge (r2 : ℕ) P.length with hrl | hrl
          · have hge : c ≤ (P.get ⟨(r2 : ℕ), hrl⟩ : ℕ) := by
              by_contra hcon
              push_neg at hcon
              have := (hsplit (r2 : ℕ) hrl).mp hcon
              omega
            have hne : (P.get ⟨(r2 : ℕ), hrl⟩ : ℕ) ≠ c := by
              intro heq
              rcases Nat.eq_or_lt_of_le hr2 with h1 | h1
              · have hkP : k < P.length := by omega
                apply hpc' hkP
                have hgete : P.get ⟨k, hkP⟩ = P.get ⟨(r2 : ℕ), hrl⟩ := by
                  congr 1
                  exact Fin.ext h1
                rw [hgete]
                exact heq
              · have hkP : k < P.length := by omega
                have hgec : c ≤ (P.get ⟨k, hkP⟩ : ℕ) := by
                  by_contra hcon
                  push_neg at hcon
                  have := (hsplit k hkP).mp hcon
                  omega
                have := hmono k (r2 : ℕ) hkP hrl (by omega)
                omega
            exact hR.lead_zero (r2 : ℕ) hrl (Nat.lt_of_lt_of_le hrl hR.len_le) ⟨c, hc⟩
              (show c < (P.get ⟨(r2 : ℕ), hrl⟩ : ℕ) by omega)
          · exact hR.zero_rows r2 (by omega) ⟨c, hc⟩
        have hsplit'' : ∀ i : ℕ, ∀ hi : i < P.length,
            ((P.get ⟨i, hi⟩ : ℕ) < c + 1 ↔ i < k) := by
          intro i hi
          constructor
          · intro hlt
            rcases Nat.lt_or_ge (P.get ⟨i, hi⟩ : ℕ) c with h1 | h1
            · exact (hsplit i hi).mp h1
            · have heqc : (P.get ⟨i, hi⟩ : ℕ) = c := by omega
              by_contra hcon
              push_neg at hcon
              rcases Nat.eq_or_lt_of_le hcon with h2 | h2
              · have hkP : k < P.length := by omega
                apply hpc' hkP
                have hgete : P.get ⟨k, hkP⟩ = P.get ⟨i, hi⟩ := by
                  congr 1
                  exact Fin.ext h2
                rw [hgete]
                exact heqc
              · have hkP : k < P.length := by omega
                have hgec : c ≤ (P.get ⟨k, hkP⟩ : ℕ) := by
                  by_contra hcon2
                  push_neg at hcon2
                  have := (hsplit k hkP).mp hcon2
                  omega
                have := hmono k i hkP hi (by omega)
                omega
          · intro hlt
            have := (hsplit i hi).mpr hlt
            omega
        have hred : rrefGo (fuel + 1) R k c = rrefGo fuel R k (c + 1) := by
          simp only [rrefGo, dif_pos hc, hnone]
        rw [hred]
        exact ih R P k (c + 1) hR (by omega) hk hsplit''
    · have hlen : P.length ≤ k := by
        by_contra hcon
        push_neg at hcon
        have h1 := (hsplit k hcon).mp
          (Nat.lt_of_lt_of_le (P.get ⟨k, hcon⟩).isLt (by omega))
        omega
      have hred : rrefGo (fuel + 1) R k c = (R, []) := by
        simp only [rrefGo, dif_neg hc]
      rw [hred, List.drop_eq_nil_of_le hlen]

/-- RREF reduction is idempotent: reducing the reduced matrix returns it
unchanged, with the same pivot column list. -/
theorem rref_idem (M : Matrix (Fin m) (Fin n) ℚ) : rref ((rref M).1) = rref M := by
  have h := rref_isRREF M
  have hfix := rrefGo_fixed n (rref M).1 (rref M).2 0 0 h (by omega) (Nat.zero_le _)
    (fun i hi => ⟨fun hlt => absurd hlt (Nat.not_lt_zero _),
      fun hlt => absurd hlt (Nat.not_lt_zero _)⟩)
  show rrefGo n (rref M).1 0 0 = rref M
  rw [hfix, List.drop_zero]

/-! ### Row space preservation and the rank of the reducer

Row operations preserve the span of the rows, an RREF matrix's row span
has dimension equal to its pivot count, and therefore the pivot count of
the reducer equals the matrix rank — in particular it is invariant under
transposition (row rank = column rank). -/

def rowSpan (M : Matrix (Fin m) (Fin n) ℚ) : Submodule ℚ (Fin n → ℚ) :=
  Submodule.span ℚ (Set.range M)

theorem rowSpan_rowSwap (M : Matrix (Fin m) (Fin n) ℚ) (a b : Fin m) :
    rowSpan (rowSwap M a b) = rowSpan M := by
  unfold rowSpan
  have he : rowSwap M a b = M ∘ (Equiv.swap a b) := by
    funext i j
    simp only [Function.comp_apply]
    by_cases h1 : i = a
    · subst h1
      rw [rowSwap_fst, Equiv.swap_apply_left]
    · by_cases h2 : i = b
      · subst h2
        rw [rowSwap_snd, Equiv.swap_apply_right]
      · rw [rowSwap_other h1 h2, Equiv.swap_apply_of_ne_of_ne h1 h2]
  rw [he, (Equiv.swap a b).surjective.range_comp M]

theorem rowSpan_rowScale {M : Matrix (Fin m) (Fin n) ℚ} {a : Fin m} {c : ℚ} (hc : c ≠ 0) :
    rowSpan (rowScale M a c) = rowSpan M := by
  have hrow : rowScale M a c a = c • M a := by
    funext j; rw [rowScale_self]; rfl
  have hrow' : ∀ i : Fin m, i ≠ a → rowScale M a c i = M i :=
    fun i hi => funext (fun j => rowScale_other hi)
  apply le_antisymm
  · rw [rowSpan, Submodule.span_le]
    rintro x ⟨i, rfl⟩
    by_cases hia : i = a
    · rw [hia, hrow]
      exact Submodule.smul_mem _ c (Submodule.subset_span (Set.mem_range_self a))
    · rw [hrow' i hia]
      exact Submodule.subset_span (Set.mem_range_self i)
  · rw [rowSpan, Submodule.span_le]
    rintro x ⟨i, rfl⟩
    by_cases hia : i = a
    · have hMa : M a = c⁻¹ • (rowScale M a c a) := by
        rw [hrow, inv_smul_smul₀ hc]
      rw [hia, hMa]
      exact Submodule.smul_mem _ _ (Submodule.subset_span (Set.mem_range_self a))
    · rw [← hrow' i hia]
      exact Submodule.subset_span (Set.mem_range_self i)

theorem rowSpan_rowEliminate (M : Matrix (Fin m) (Fin n) ℚ) (a : Fin m) (p : Fin n) :
    rowSpan (rowEliminate M a p) = rowSpan M := by
  have helima : rowEliminate M a p a = M a := funext (fun j => rowEliminate_self)
  have helim : ∀ i : Fin m, i ≠ a → rowEliminate M a p i = M i - (M i p) • M a := by
    intro i hi; funext j; rw [rowEliminate_other hi]; rfl
  apply le_antisymm
  · rw [rowSpan, Submodule.span_le]
    rintro x ⟨i, rfl⟩
    by_cases hia : i = a
    · rw [hia, helima]
      exact Submodule.subset_span (Set.mem_range_self a)
    · rw [helim i hia]
      exact Submodule.sub_mem _ (Submodule.subset_span (Set.mem_range_self i))
        (Submodule.smul_mem _ _ (Submodule.subset_span (Set.mem_range_self a)))
  · rw [rowSpan, Submodule.span_le]
    rintro x ⟨i, rfl⟩
    by_cases hia : i = a
    · rw [hia, ← helima]
      exact Submodule.subset_span (Set.mem_range_self a)
    · have hMi : M i = rowEliminate M a p i + (M i p) • (rowEliminate M a p a) := by
        rw [helima, helim i hia, sub_add_cancel]
      rw [hMi]
      exact Submodule.add_mem _ (Submodule.subset_span (Set.mem_range_self i))
        (Submodule.smul_mem _ _ (Submodule.subset_span (Set.mem_range_self a)))

theorem rowSpan_pivotStep {M : Matrix (Fin m) (Fin n) ℚ} {k r : Fin m} {c : Fin n}
    (hr : M r c ≠ 0) : rowSpan (pivotStep M k c r) = rowSpan M := by
  show rowSpan (rowEliminate (rowScale (rowSwap M k r) k ((rowSwap M k r) k c)⁻¹) k c)
    = rowSpan M
  rw [rowSpan_rowEliminate,
    rowSpan_rowScale (by rw [rowSwap_fst]; exact inv_ne_zero hr), rowSpan_rowSwap]

theorem rrefGo_rowSpan : ∀ (fuel : ℕ) (M : Matrix (Fin m) (Fin n) ℚ) (k c : ℕ),
    rowSpan (rrefGo fuel M k c).1 = rowSpan M := by
  intro fuel
  induction fuel with
  | zero => intro M k c; rfl
  | succ fuel ih =>
    intro M k c
    by_cases hc : c < n
    · cases hfp : findPivot M k ⟨c, hc⟩ with
      | none =>
        have hred : (rrefGo (fuel + 1) M k c).1 = (rrefGo fuel M k (c + 1)).1 := by
          simp only [rrefGo, dif_pos hc, hfp]
        rw [hred, ih]
      | some r =>
        obtain ⟨hkr, hMrc⟩ := findPivot_some hfp
        have hkm : k < m := Nat.lt_of_le_of_lt hkr r.isLt
        have hred : (rrefGo (fuel + 1) M k c).1 =
            (rrefGo fuel (pivotStep M ⟨k, hkm⟩ ⟨c, hc⟩ r) (k + 1) (c + 1)).1 := by
          simp only [rrefGo, dif_pos hc, hfp, dif_pos hkm]
        rw [hred, ih, rowSpan_pivotStep hMrc]
    · have hred : (rrefGo (fuel + 1) M k c).1 = M := by
        simp only [rrefGo, dif_neg hc]
      rw [hred]

theorem rref_rowSpan (M : Matrix (Fin m) (Fin n) ℚ) : rowSpan (rref M).1 = rowSpan M :=
  rrefGo_rowSpan n M 0 0

theorem isRREF_finrank {R : Matrix (Fin m) (Fin n) ℚ} {P : List (Fin n)}
    (h : IsRREF R P) : Module.finrank ℚ (rowSpan R) = P.length := by
  classical
  have hKm : P.length ≤ m := h.len_le
  set v : Fin P.length → (Fin n → ℚ) :=
    fun i => R ⟨(i : ℕ), Nat.lt_of_lt_of_le i.isLt hKm⟩ with hv
  have hspan : rowSpan R = Submodule.span ℚ (Set.range v) := by
    apply le_antisymm
    · rw [rowSpan, Submodule.span_le]
      rintro x ⟨i, rfl⟩
      by_cases hi : (i : ℕ) < P.length
      · have hRi : R i = v ⟨(i : ℕ), hi⟩ := by
          rw [hv]
        rw [hRi]
        exact Submodule.subset_span (Set.mem_range_self _)
      · have hz : R i = 0 := funext (fun j => h.zero_rows i (by omega) j)
        rw [hz]
        exact Submodule.zero_mem _
    · rw [Submodule.span_le]
      rintro x ⟨i, rfl⟩
      exact Submodule.subset_span (Set.mem_range_self _)
  have hli : LinearIndependent ℚ v := by
    rw [Fintype.linearIndependent_iff]
    intro g hg i
    have hcol := congrFun hg (P.get ⟨(i : ℕ), i.isLt⟩)
    rw [Finset.sum_apply, Pi.zero_apply] at hcol
    have heval : ∀ t : Fin P.length,
        (g t • v t) (P.get ⟨(i : ℕ), i.isLt⟩) = if t = i then g i else 0 := by
      intro t
      by_cases hti : t = i
      · have h1 : v i (P.get ⟨(i : ℕ), i.isLt⟩) = 1 :=
          h.pivot_one (i : ℕ) i.isLt (Nat.lt_of_lt_of_le i.isLt hKm)
        rw [if_pos hti, hti, Pi.smul_apply, h1, smul_eq_mul, mul_one]
      · have h0 : v t (P.get ⟨(i : ℕ), i.isLt⟩) = 0 :=
          h.pivot_col (i : ℕ) i.isLt _ (fun hc => hti (Fin.ext hc))
        rw [if_neg hti, Pi.smul_apply, h0, smul_zero]
    rw [Finset.sum_congr rfl (fun t _ => heval t), Finset.sum_ite_eq' Finset.univ i] at hcol
    simpa using hcol
  rw [hspan, finrank_span_eq_card hli, Fintype.card_fin]

theorem matRank_eq_rank (M : Matrix (Fin m) (Fin n) ℚ) : matRank M = Matrix.rank M := by
  have h2 : Module.finrank ℚ (rowSpan (rref M).1) = (rref M).2.length :=
    isRREF_finrank (rref_isRREF M)
  rw [matRank, ← h2, rref_rowSpan M, rowSpan]
  exact (Matrix.rank_eq_finrank_span_row M).symm

/-- The pivot count of the reducer is invariant under transposition:
row rank equals column rank. -/
theorem matRank_transpose (M : Matrix (Fin m) (Fin n) ℚ) :
    matRank (Matrix.transpose M) = matRank M := by
  rw [matRank_eq_rank, matRank_eq_rank]
  exact Matrix.rank_transpose M

/-! ### Counting free columns -/

theorem length_filter_add_length_filter_not {α : Type*} (l : List α) (p : α → Bool) :
    (l.filter p).length + (l.filter (fun a => !(p a))).length = l.length := by
  induction l with
  | nil => rfl
  | cons a l ih =>
    by_cases h : p a = true
    · simp [List.filter_cons, h]
      omega
    · have h' : p a = false := Bool.not_eq_true _ |>.mp h
      simp [List.filter_cons, h']
      omega

theorem filter_mem_length {P : List (Fin n)} (hnd : P.Nodup) :
    ((List.finRange n).filter (fun j => decide (j ∈ P))).length = P.length := by
  have hperm : List.Perm ((List.finRange n).filter (fun j => decide (j ∈ P))) P := by
    rw [List.perm_ext_iff_of_nodup (List.Nodup.filter _ (List.nodup_finRange n)) hnd]
    intro a
    simp [List.mem_filter]
  exact hperm.length_eq

theorem freeCols_length {P : List (Fin n)} (hnd : P.Nodup) :
    (freeCols P).length = n - P.length := by
  unfold freeCols
  have hsplit := length_filter_add_length_filter_not (List.finRange n)
    (fun j => decide (j ∈ P))
  have hmem := filter_mem_length hnd
  have hlen : (List.finRange n).length = n := List.length_finRange n
  have hpred : (fun j : Fin n => decide (j ∉ P)) = (fun j : Fin n => !(decide (j ∈ P))) := by
    funext j; exact decide_not
  rw [hpred]
  omega

theorem nullspaceVecs_length {R : Matrix (Fin m) (Fin n) ℚ} {P : List (Fin n)}
    (hnd : P.Nodup) : (nullspaceVecs R P).length = n - P.length := by
  unfold nullspaceVecs
  rw [List.length_map]
  exact freeCols_length hnd

theorem sorted_nodup {P : List (Fin n)} (h : List.Pairwise (· < ·) P) : P.Nodup :=
  h.imp (fun hlt => ne_of_lt hlt)

theorem matRank_le_height (M : Matrix (Fin m) (Fin n) ℚ) : matRank M ≤ m :=
  (rref_isRREF M).len_le

theorem matRank_le_width (M : Matrix (Fin m) (Fin n) ℚ) : matRank M ≤ n := by
  have h := List.Nodup.length_le_card (sorted_nodup (rref_isRREF M).sorted)
  simpa [Fintype.card_fin] using h

instance {ε α : Type*} [DecidableEq ε] [DecidableEq α] : DecidableEq (Except ε α) :=
  fun x y =>
    match x, y with
    | .ok a, .ok b =>
      if h : a = b then .isTrue (by rw [h]) else .isFalse (fun hc => h (Except.ok.inj hc))
    | .error a, .error b =>
      if h : a = b then .isTrue (by rw [h]) else .isFalse (fun hc => h (Except.error.inj hc))
    | .ok _, .error _ => .isFalse (fun hc => Except.noConfusion hc)
    | .error _, .ok _ => .isFalse (fun hc => Except.noConfusion hc)

/-! ### Parsing helpers -/

theorem mapM_option_some {α β : Type*} (f : α → Option β) :
    ∀ l : List α, (∀ a ∈ l, (f a).isSome) → ∃ l', l.mapM f = some l' := by
  intro l
  induction l with
  | nil => intro _; exact ⟨[], rfl⟩
  | cons a l ih =>
    intro h
    obtain ⟨b, hb⟩ := Option.isSome_iff_exists.mp (h a (List.mem_cons_self a l))
    obtain ⟨l', hl'⟩ := ih (fun x hx => h x (List.mem_cons_of_mem a hx))
    refine ⟨b :: l', ?_⟩
    rw [List.mapM_cons, hb, hl']
    rfl

theorem mapM_option_cases {α β : Type*} {f : α → Option β} {a : α} {l : List α}
    {l' : List β} (h : (a :: l).mapM f = some l') :
    ∃ b t, f a = some b ∧ l.mapM f = some t ∧ l' = b :: t := by
  rw [List.mapM_cons] at h
  cases hfa : f a with
  | none => rw [hfa] at h; cases h
  | some b =>
    rw [hfa] at h
    cases hml : l.mapM f with
    | none => rw [hml] at h; cases h
    | some t =>
      rw [hml] at h
      refine ⟨b, t, rfl, rfl, ?_⟩
      cases h
      rfl

theorem mapM_option_length {α β : Type*} {f : α → Option β} :
    ∀ {l : List α} {l' : List β}, l.mapM f = some l' → l'.length = l.length := by
  intro l
  induction l with
  | nil =>
    intro l' h
    cases h
    rfl
  | cons a l ih =>
    intro l' h
    obtain ⟨b, t, _, hml, rfl⟩ := mapM_option_cases h
    simp only [List.length_cons, ih hml]

theorem searchDecimal_some {x : ℚ} :
    ∀ {fuel d : ℕ} {v : ℚ}, searchDecimal x fuel d = some v → toDouble v = x := by
  intro fuel
  induction fuel with
  | zero => intro d v h; cases h
  | succ fuel ih =>
    intro d v h
    simp only [searchDecimal] at h
    split at h
    next hcond =>
      cases h
      exact sub_eq_zero.mp hcond
    next hcond => exact ih h

/-- A float whose shortest-decimal conversion is looked up round-trips: the
rational chosen by the simplicity search rounds back to the same double. -/
theorem nsimplifyRat_roundtrip {x : ℚ} (hx : toDouble x = x) :
    toDouble (nsimplifyRat x) = x := by
  unfold nsimplifyRat shortestDecimal
  cases hs : searchDecimal x 1100 0 with
  | none => exact hx
  | some v =>
    rw [Option.getD_some]
    exact searchDecimal_some hs

/-! ### Rows as indexed maps -/

theorem map_rows_eq {α : Type*} (rows : List (List ℚ)) (g : List ℚ → α) :
    rows.map g
      = (List.finRange rows.length).map (fun i : Fin rows.length => g (rows.getD i.val [])) := by
  apply List.ext_get
  · rw [List.length_map, List.length_map, List.length_finRange]
  · intro i h1 h2
    rw [List.get_map, List.get_map, List.get_finRange]
    congr 1
    have hi : i < rows.length := by
      rw [List.length_map] at h1
      exact h1
    rw [List.getD_eq_getElem?_getD, List.getElem?_eq_getElem hi]
    rfl

/-! ### Dimensions of the assembled result -/

theorem computeAllSpaces_dims (rows : List (List ℚ)) :
    (computeAllSpaces rows).rank = matRank (toMat rows) ∧
    (computeAllSpaces rows).column_space.dimension = matRank (toMat rows) ∧
    (computeAllSpaces rows).row_space.dimension = matRank (toMat rows) ∧
    (computeAllSpaces rows).null_space.dimension
      = (rows.headD []).length - matRank (toMat rows) ∧
    (computeAllSpaces rows).left_null_space.dimension
      = rows.length - matRank (toMat rows) ∧
    (computeAllSpaces rows).dimension_check.valid = true := by
  have hM := rref_isRREF (toMat rows)
  have hMt := rref_isRREF (Matrix.transpose (toMat rows))
  have hnd := sorted_nodup hM.sorted
  have hndT := sorted_nodup hMt.sorted
  have hT : matRank (Matrix.transpose (toMat rows)) = matRank (toMat rows) :=
    matRank_transpose (toMat rows)
  have hlen1 := nullspaceVecs_length (R := (rref (toMat rows)).1) hnd
  have hlen2 := nullspaceVecs_length (R := (rref (Matrix.transpose (toMat rows))).1) hndT
  have hle_m : matRank (toMat rows) ≤ rows.length := matRank_le_height (toMat rows)
  have hle_n : matRank (toMat rows) ≤ (rows.headD []).length := matRank_le_width (toMat rows)
  unfold matRank at hT hle_m hle_n hlen2
  simp only [computeAllSpaces, List.length_map, List.length_take, List.length_finRange]
  unfold matRank
  refine ⟨rfl, rfl, ?_, ?_, ?_, ?_⟩
  · omega
  · exact hlen1
  · rw [hlen2, hT]
  · rw [decide_eq_true_eq]
    refine ⟨?_, ?_, ?_, ?_⟩
    · trivial
    · omega
    · exact hlen1
    · rw [hlen2, hT]

theorem validateAndParse_ok (raw : List (List Entry))
    (h1 : raw ≠ []) (h2 : raw.length ≤ 5)
    (h3 : 0 < (raw.headD []).length) (h4 : (raw.headD []).length ≤ 5)
    (h5 : ∀ row ∈ raw, row.length = (raw.headD []).length)
    (h6 : ∀ row ∈ raw, ∀ e ∈ row, (parseEntry e).isSome) :
    ∃ rows : List (List ℚ), validateAndParse raw = Except.ok rows ∧
      raw.mapM (fun row => row.mapM parseEntry) = some rows := by
  have hrowsome : ∀ row ∈ raw,
      ((fun row : List Entry => row.mapM parseEntry) row).isSome := by
    intro row hrow
    show (row.mapM parseEntry).isSome = true
    obtain ⟨l', hl'⟩ := mapM_option_some parseEntry row (h6 row hrow)
    rw [hl']
    rfl
  obtain ⟨rows, hrows⟩ := mapM_option_some _ raw hrowsome
  refine ⟨rows, ?_, hrows⟩
  unfold validateAndParse
  rw [if_neg (fun hcon => h1 (List.isEmpty_iff.mp hcon)), if_neg (by omega),
    if_neg (by omega), if_neg (by omega), if_neg (fun hcon => hcon h5), hrows]

/-! ### The claims -/

/-- C1: refuted in code — for every input that passes validation
(nonempty, at most 5 rows and 5 columns, rectangular, all entries
numeric), the program does not return an assembled Computation Result:
the first serialization call inside `compute_all_spaces` raises
`TypeError` (the `lru_cache`-decorated `sympy_to_python` receives the
unhashable `tolist()` list, src/matrix_engine.py line 175), so every
valid input ends in the internal-error branch rather than a result. -/
theorem c1_compute_raises_typeerror (raw : List (List Entry))
    (h1 : raw ≠ []) (h2 : raw.length ≤ 5)
    (h3 : 0 < (raw.headD []).length) (h4 : (raw.headD []).length ≤ 5)
    (h5 : ∀ row ∈ raw, row.length = (raw.headD []).length)
    (h6 : ∀ row ∈ raw, ∀ e ∈ row, (parseEntry e).isSome) :
    (∃ rows : List (List ℚ), validateAndParse raw = Except.ok rows) ∧
    computeFromRawPy raw = Except.error (Sum.inr PyError.typeError) := by
  obtain ⟨rows, hok, _⟩ := validateAndParse_ok raw h1 h2 h3 h4 h5 h6
  refine ⟨⟨rows, hok⟩, ?_⟩
  unfold computeFromRawPy
  rw [hok]
  rfl

theorem c1_bug_witness :
    (∃ rows : List (List ℚ),
      validateAndParse [[Entry.int 1, Entry.int 2], [Entry.int 2, Entry.int 4]]
        = Except.ok rows) ∧
    computeFromRawPy [[Entry.int 1, Entry.int 2], [Entry.int 2, Entry.int 4]]
      = Except.error (Sum.inr PyError.typeError) :=
  c1_compute_raises_typeerror [[Entry.int 1, Entry.int 2], [Entry.int 2, Entry.int 4]]
    (by decide) (by decide) (by decide) (by decide) (by decide) (by decide)

/-- C2 counterexample: the claim says a floating entry parses to the
float's exact binary fraction; for the double nearest 0.1 the parser
instead returns 1/10, which differs from that double's exact value. -/
theorem c2_counterexample :
    parseEntry (Entry.float (toDouble ((1 : ℚ)/10))) ≠ some (toDouble ((1 : ℚ)/10)) := by
  have h1 : parseEntry (Entry.float (toDouble ((1 : ℚ)/10))) = some ((1 : ℚ)/10) := by
    with_unfolding_all rfl
  have h2 : toDouble ((1 : ℚ)/10) = (3602879701896397 : ℚ)/36028797018963968 := by
    with_unfolding_all rfl
  rw [h1, h2]
  intro hcon
  have hq : (1 : ℚ)/10 = (3602879701896397 : ℚ)/36028797018963968 := Option.some.inj hcon
  norm_num at hq

/-- C2 (amended): a floating entry parses to the small-denominator
rational found by the simplicity search — the value of the float's
shortest decimal representation — which rounds back to the very same
double (no drift), but need not equal the float's exact binary fraction;
the floating input 0.5 does parse to exactly 1/2. -/
theorem c2_float_parse (x : ℚ) (hx : toDouble x = x) :
    (∃ q : ℚ, parseEntry (Entry.float x) = some q ∧ toDouble q = x) ∧
    parseEntry (Entry.float (toDouble ((1 : ℚ)/2))) = some ((1 : ℚ)/2) := by
  refine ⟨⟨nsimplifyRat x, rfl, nsimplifyRat_roundtrip hx⟩, ?_⟩
  with_unfolding_all rfl

theorem c2_witness :
    (∃ q : ℚ, parseEntry (Entry.float ((1 : ℚ)/2)) = some q ∧ toDouble q = (1 : ℚ)/2) ∧
    parseEntry (Entry.float (toDouble ((1 : ℚ)/2))) = some ((1 : ℚ)/2) :=
  c2_float_parse ((1 : ℚ)/2) (by with_unfolding_all rfl)

/-- C3: refuted in code — the entry 1/3 passes validation and parses
exactly, but the program assembles no `matrix` field at all (exact or
approximate): `compute_all_spaces` raises `TypeError` at its first
serialization call (src/matrix_engine.py line 175), so the request for
`[["1/3"]]` ends in the internal-error branch and no serialized value
ever exists for any entry. -/
theorem c3_no_exact_assembly :
    validateAndParse [[Entry.str (some ((1 : ℚ)/3))]] = Except.ok [[(1 : ℚ)/3]] ∧
    (computeAllSpacesPy [[(1 : ℚ)/3]]).map (fun r => r.matrix.data)
      = Except.error PyError.typeError ∧
    computeFromRawPy [[Entry.str (some ((1 : ℚ)/3))]]
      = Except.error (Sum.inr PyError.typeError) :=
  ⟨rfl, rfl, rfl⟩

/-- C4: refuted in code — the `dimension_check` entry and its `valid`
flag are never constructed: for every parsed matrix the assembly raises
`TypeError` before any field of the result dict exists, so no run of the
program realizes the cross-check flag, let alone sets it true. -/
theorem c4_no_dimension_check (rows : List (List ℚ)) :
    (computeAllSpacesPy rows).map (fun r => r.dimension_check.valid)
      = Except.error PyError.typeError :=
  rfl

/-- C5: inserting a Computation Result into the cache under a fingerprint
and immediately looking that fingerprint up returns the identical result,
which the compute handler serves with `cached = true`; after `clear()`
removes all entries, the same lookup misses. -/
theorem c5_cache_roundtrip (st : CacheState) (now : ℕ) (k : List (List Entry))
    (res : ComputationResult) (httl : 0 < st.ttl) :
    cacheLookup (cacheInsert st now k res) now k = some res ∧
    (computeSubspaces (cacheInsert st now k res) now k).1
      = Except.ok { res with cached := true } ∧
    cacheLookup (cacheClear (cacheInsert st now k res)) now k = none := by
  have hfreshhead : ∀ l : List CacheEntry,
      freshEntries { st with entries := { key := k, value := res, insertedAt := now } :: l } now
        = { key := k, value := res, insertedAt := now } ::
            freshEntries { st with entries := l } now := by
    intro l
    unfold freshEntries
    rw [List.filter_cons, if_pos (decide_eq_true (show now < now + st.ttl by omega))]
  have hfind : ∀ l : List CacheEntry,
      ((freshEntries (cacheInsert st now k res) now).find? fun e => decide (e.key = k))
        = some { key := k, value := res, insertedAt := now } := by
    intro l
    unfold cacheInsert
    rw [hfreshhead]
    exact List.find?_cons_of_pos _ (decide_eq_true rfl)
  refine ⟨?_, ?_, ?_⟩
  · unfold cacheLookup
    rw [hfind []]
    rfl
  · unfold computeSubspaces
    rw [hfind []]
  · rfl

theorem c5_witness :
    cacheLookup (cacheInsert ⟨[], 100, 3600⟩ 0 [[Entry.int 1]] (computeAllSpaces [[(1 : ℚ)]]))
        0 [[Entry.int 1]] = some (computeAllSpaces [[(1 : ℚ)]]) ∧
    (computeSubspaces (cacheInsert ⟨[], 100, 3600⟩ 0 [[Entry.int 1]]
        (computeAllSpaces [[(1 : ℚ)]])) 0 [[Entry.int 1]]).1
      = Except.ok { computeAllSpaces [[(1 : ℚ)]] with cached := true } ∧
    cacheLookup (cacheClear (cacheInsert ⟨[], 100, 3600⟩ 0 [[Entry.int 1]]
        (computeAllSpaces [[(1 : ℚ)]]))) 0 [[Entry.int 1]] = none :=
  c5_cache_roundtrip ⟨[], 100, 3600⟩ 0 [[Entry.int 1]] (computeAllSpaces [[(1 : ℚ)]])
    (by decide)

/-- C6: refuted in code — the serialized column-space basis is never
produced: the basis serialization site (src/matrix_engine.py line 187)
is never reached, because the assembly already raises `TypeError` at the
matrix-data call (line 175); shown generally and on the 3x3 rank-2
example matrix. -/
theorem c6_no_serialized_basis :
    (∀ rows : List (List ℚ), (computeAllSpacesPy rows).map
        (fun r => r.column_space.basis) = Except.error PyError.typeError) ∧
    computeFromRawPy [[Entry.int 1, Entry.int 2, Entry.int 3],
        [Entry.int 4, Entry.int 5, Entry.int 6],
        [Entry.int 7, Entry.int 8, Entry.int 9]]
      = Except.error (Sum.inr PyError.typeError) :=
  ⟨fun _ => rfl, rfl⟩

/-- C7: RREF reduction is idempotent — reducing the already-reduced
matrix returns it unchanged, together with the same pivot column list. -/
theorem c7_rref_idempotent {m n : ℕ} (M : Matrix (Fin m) (Fin n) ℚ) :
    rref ((rref M).1) = rref M :=
  rref_idem M

/-- C8: for every matrix the RREF result has a strictly increasing pivot
column sequence whose length is the rank; each pivot column holds exactly
one nonzero entry, a 1 in its pivot row; and every row below the last
pivot row is entirely zero. -/
theorem c8_rref_invariants {m n : ℕ} (M : Matrix (Fin m) (Fin n) ℚ) :
    List.Pairwise (· < ·) (rref M).2 ∧
    (rref M).2.length = matRank M ∧
    (∀ i : ℕ, ∀ hi : i < (rref M).2.length, ∀ hrow : i < m,
      (rref M).1 ⟨i, hrow⟩ ((rref M).2.get ⟨i, hi⟩) = 1 ∧
      ∀ r : Fin m, (r : ℕ) ≠ i → (rref M).1 r ((rref M).2.get ⟨i, hi⟩) = 0) ∧
    ∀ r : Fin m, (rref M).2.length ≤ (r : ℕ) → ∀ j : Fin n, (rref M).1 r j = 0 := by
  have h := rref_isRREF M
  exact ⟨h.sorted, rfl, fun i hi hrow => ⟨h.pivot_one i hi hrow, h.pivot_col i hi⟩,
    h.zero_rows⟩

theorem c8_witness :
    (rref (toMat [[(1 : ℚ), 2], [2, 4]])).1 ⟨0, by decide⟩
        ((rref (toMat [[(1 : ℚ), 2], [2, 4]])).2.get
          ⟨0, by rw [show (rref (toMat [[(1 : ℚ), 2], [2, 4]])).2.length = 1 by
            with_unfolding_all rfl]; decide⟩) = 1 :=
  ((c8_rref_invariants (toMat [[(1 : ℚ), 2], [2, 4]])).2.2.1 0
    (by rw [show (rref (toMat [[(1 : ℚ), 2], [2, 4]])).2.length = 1 by
      with_unfolding_all rfl]; decide) (by decide)).1

/-- C9 counterexample: the claim says an empty first row yields the
`EmptyMatrix` validation error; the parser actually reports
`ZeroColumns` for the input `[[]]`. -/
theorem c9_counterexample :
    validateAndParse [([] : List Entry)] ≠ Except.error ValidationError.EmptyMatrix ∧
    validateAndParse [([] : List Entry)] = Except.error ValidationError.ZeroColumns := by
  constructor
  · intro hcon
    cases hcon
  · rfl

/-- C9 (amended): an empty outer sequence fails with `EmptyMatrix`, while
an empty first row (with the row count within bounds) fails with
`ZeroColumns`, not `EmptyMatrix`. -/
theorem c9_empty_inputs (raw : List (List Entry)) :
    validateAndParse ([] : List (List Entry)) = Except.error ValidationError.EmptyMatrix ∧
    (raw ≠ [] → raw.length ≤ 5 → (raw.headD []).length = 0 →
      validateAndParse raw = Except.error ValidationError.ZeroColumns) := by
  refine ⟨rfl, ?_⟩
  intro h1 h2 h3
  unfold validateAndParse
  rw [if_neg (fun hcon => h1 (List.isEmpty_iff.mp hcon)), if_neg (by omega), if_pos h3]

theorem c9_witness :
    validateAndParse [([] : List Entry)] = Except.error ValidationError.ZeroColumns :=
  (c9_empty_inputs [([] : List Entry)]).2 (by decide) (by decide) rfl


theorem freshEntries_map_update (st : CacheState) (now : ℕ)
    (f : CacheEntry → CacheEntry) (hf : ∀ e2, (f e2).insertedAt = e2.insertedAt) :
    freshEntries { st with entries := (freshEntries st now).map f } now
      = (freshEntries st now).map f := by
  show (((st.entries.filter fun e => decide (now < e.insertedAt + st.ttl)).map f).filter
      fun e => decide (now < e.insertedAt + st.ttl))
    = (st.entries.filter fun e => decide (now < e.insertedAt + st.ttl)).map f
  rw [List.filter_map]
  have hcomp : ((fun e2 : CacheEntry => decide (now < e2.insertedAt + st.ttl)) ∘ f)
      = (fun e2 : CacheEntry => decide (now < e2.insertedAt + st.ttl)) := by
    funext e2
    simp only [Function.comp_apply, hf e2]
  rw [hcomp, List.filter_filter]
  have hand : (fun a : CacheEntry =>
      decide (now < a.insertedAt + st.ttl) && decide (now < a.insertedAt + st.ttl))
      = (fun e : CacheEntry => decide (now < e.insertedAt + st.ttl)) := by
    funext a
    rw [Bool.and_self]
  rw [hand]

theorem computeSubspaces_hit {st : CacheState} {now : ℕ} {raw : List (List Entry)}
    {e : CacheEntry}
    (hfind : (freshEntries st now).find? (fun e2 => decide (e2.key = raw)) = some e) :
    computeSubspaces st now raw
      = (Except.ok { e.value with cached := true },
          { st with entries := ((freshEntries st now).map
              (fun e2 => if e2.key = raw then
                { e2 with value := { e.value with cached := true } } else e2)) }) := by
  unfold computeSubspaces
  rw [hfind]

theorem hitUpdate_comp (raw : List (List Entry)) (v w : ComputationResult)
    (l : List CacheEntry) :
    (l.map (fun e2 => if e2.key = raw then { e2 with value := v } else e2)).map
      (fun e2 => if e2.key = raw then { e2 with value := w } else e2)
    = l.map (fun e2 => if e2.key = raw then { e2 with value := w } else e2) := by
  rw [List.map_map]
  apply List.map_congr_left
  intro e2 _
  by_cases h : e2.key = raw <;> simp [Function.comp_apply, h]

/-- C10: a cache hit mutates the shared cache state — the handler sets the
stored entry's `cached` field to true in place and returns that stored
result; afterwards the entry kept in the cache permanently carries
`cached = true`, and a subsequent request for the same fingerprint is
answered with that same stored value while leaving the cache state
unchanged. -/
theorem c10_hit_mutates_cache (st : CacheState) (now : ℕ) (raw : List (List Entry))
    (e : CacheEntry)
    (hfind : (freshEntries st now).find? (fun e2 => decide (e2.key = raw)) = some e) :
    (computeSubspaces st now raw).1 = Except.ok { e.value with cached := true } ∧
    (freshEntries (computeSubspaces st now raw).2 now).find?
        (fun e2 => decide (e2.key = raw))
      = some { e with value := { e.value with cached := true } } ∧
    (computeSubspaces (computeSubspaces st now raw).2 now raw).1
      = Except.ok { e.value with cached := true } ∧
    (computeSubspaces (computeSubspaces st now raw).2 now raw).2
      = (computeSubspaces st now raw).2 := by
  have hkey : e.key = raw := by
    have h := List.find?_some hfind
    exact of_decide_eq_true h
  have hstep := computeSubspaces_hit hfind
  have h2 : (computeSubspaces st now raw).2
      = { st with entries := ((freshEntries st now).map
          (fun e2 => if e2.key = raw then
            { e2 with value := { e.value with cached := true } } else e2)) } := by
    rw [hstep]
  have hinserted : ∀ e2 : CacheEntry,
      ((fun e2 : CacheEntry => if e2.key = raw then
          { e2 with value := { e.value with cached := true } } else e2) e2).insertedAt
        = e2.insertedAt := by
    intro e2
    by_cases h : e2.key = raw <;> simp [h]
  have hfresh := freshEntries_map_update st now _ hinserted
  have hpred : ((fun e2 : CacheEntry => decide (e2.key = raw))
        ∘ (fun e2 : CacheEntry => if e2.key = raw then
            { e2 with value := { e.value with cached := true } } else e2))
      = (fun e2 : CacheEntry => decide (e2.key = raw)) := by
    funext e2
    by_cases h : e2.key = raw <;> simp [h]
  have hfind2 : (freshEntries (computeSubspaces st now raw).2 now).find?
      (fun e2 => decide (e2.key = raw))
      = some { e with value := { e.value with cached := true } } := by
    rw [h2, hfresh, List.find?_map, hpred, hfind, Option.map_some']
    simp only [if_pos hkey]
  have hstep2 := computeSubspaces_hit hfind2
  refine ⟨by rw [hstep], hfind2, by rw [hstep2], ?_⟩
  rw [hstep2, h2, hfresh, hitUpdate_comp]

theorem c10_witness :
    (computeSubspaces
        (CacheState.mk [CacheEntry.mk [[Entry.int 1]] (computeAllSpaces [[(1 : ℚ)]]) 0]
          100 3600) 0 [[Entry.int 1]]).1
      = Except.ok { computeAllSpaces [[(1 : ℚ)]] with cached := true } ∧
    (freshEntries (computeSubspaces
        (CacheState.mk [CacheEntry.mk [[Entry.int 1]] (computeAllSpaces [[(1 : ℚ)]]) 0]
          100 3600) 0 [[Entry.int 1]]).2 0).find?
        (fun e2 => decide (e2.key = [[Entry.int 1]]))
      = some (CacheEntry.mk [[Entry.int 1]]
          { computeAllSpaces [[(1 : ℚ)]] with cached := true } 0) ∧
    (computeSubspaces (computeSubspaces
        (CacheState.mk [CacheEntry.mk [[Entry.int 1]] (computeAllSpaces [[(1 : ℚ)]]) 0]
          100 3600) 0 [[Entry.int 1]]).2 0 [[Entry.int 1]]).1
      = Except.ok { computeAllSpaces [[(1 : ℚ)]] with cached := true } ∧
    (computeSubspaces (computeSubspaces
        (CacheState.mk [CacheEntry.mk [[Entry.int 1]] (computeAllSpaces [[(1 : ℚ)]]) 0]
          100 3600) 0 [[Entry.int 1]]).2 0 [[Entry.int 1]]).2
      = (computeSubspaces
          (CacheState.mk [CacheEntry.mk [[Entry.int 1]] (computeAllSpaces [[(1 : ℚ)]]) 0]
            100 3600) 0 [[Entry.int 1]]).2 :=
  c10_hit_mutates_cache
    (CacheState.mk [CacheEntry.mk [[Entry.int 1]] (computeAllSpaces [[(1 : ℚ)]]) 0] 100 3600)
    0 [[Entry.int 1]]
    (CacheEntry.mk [[Entry.int 1]] (computeAllSpaces [[(1 : ℚ)]]) 0)
    (by rfl)

end Spaces
